import Mathlib

/-!
Shallow embedding of the two notebooks `STFT-CNN.ipynb` and `LDC-Unet.ipynb`
of the AIMC-image-classification repository, together with theorems settling
the claims C1-C10 about them.

Tensors are modelled at the level the claims speak about:
* layer compositions (`MainModel`, `encoder`, `decoder`, `LDC_Unet`) by a
  shape calculus over `Nat` dimensions, with `Option` recording the
  well-formedness checks the framework performs at runtime;
* the custom loss, the pre-processing pipeline and the metric code by exact
  rational arithmetic (`ℚ`) over lists; and
* the training loop and the file-loading code by explicit state passing,
  with the opaque framework parts (per-batch losses, the h5 library,
  `cv2.resize`, `nn.CrossEntropyLoss`) taken as parameters.
-/

namespace AIMC

/-! ## Shape calculus for the torch layers used by the notebooks -/

/-- Shape of a 4-d tensor `(N, C, H, W)`. -/
structure Shape4 where
  n : Nat
  c : Nat
  h : Nat
  w : Nat
  deriving DecidableEq, Repr

/-- Shape of a 2-d tensor `(N, F)` as produced by `nn.Flatten`. -/
structure Shape2 where
  n : Nat
  features : Nat
  deriving DecidableEq, Repr

/-- Output spatial size of a convolution/pooling window:
`floor ((size + 2p - k) / s) + 1`. -/
def convOutDim (size k s p : Nat) : Nat := (size + 2 * p - k) / s + 1

/-- `nn.Conv2d(in_channels, out_channels, kernel_size=k, stride=s, padding=p)`
on shapes: the input must have `inC` channels and the (padded) spatial dims
must fit the kernel. -/
def conv2d (inC outC k s p : Nat) (x : Shape4) : Option Shape4 :=
  if x.c = inC ∧ k ≤ x.h + 2 * p ∧ k ≤ x.w + 2 * p then
    some ⟨x.n, outC, convOutDim x.h k s p, convOutDim x.w k s p⟩
  else none

/-- `nn.ReLU()` preserves the shape. -/
def reluShape (x : Shape4) : Shape4 := x

/-- `nn.AvgPool2d(kernel_size=k, stride=s)` on shapes. -/
def avgPool2d (k s : Nat) (x : Shape4) : Option Shape4 :=
  if k ≤ x.h ∧ k ≤ x.w then
    some ⟨x.n, x.c, (x.h - k) / s + 1, (x.w - k) / s + 1⟩
  else none

/-- `nn.MaxPool2d(kernel_size=k)` (stride defaults to the kernel size). -/
def maxPool2d (k s : Nat) (x : Shape4) : Option Shape4 :=
  if k ≤ x.h ∧ k ≤ x.w then
    some ⟨x.n, x.c, (x.h - k) / s + 1, (x.w - k) / s + 1⟩
  else none

/-- `nn.Upsample(scale_factor=(2, 2), mode='bilinear', align_corners=True)`:
bilinear interpolation changes values, not the shape law `H ↦ 2H`. -/
def upsample2x (x : Shape4) : Shape4 := ⟨x.n, x.c, 2 * x.h, 2 * x.w⟩

/-- Elementwise `+` of two tensors requires identical shapes. -/
def addShapes (x y : Shape4) : Option Shape4 :=
  if x = y then some x else none

/-- `torch.cat(xs, dim=1)`: all batch/spatial dims must agree; channel
counts add up. -/
def catChannels : List Shape4 → Option Shape4
  | [] => none
  | x :: rest =>
    if rest.all fun y => y.n == x.n && y.h == x.h && y.w == x.w then
      some ⟨x.n, x.c + (rest.map Shape4.c).sum, x.h, x.w⟩
    else none

/-- `nn.Flatten()` on shapes. -/
def flattenShape (x : Shape4) : Shape2 := ⟨x.n, x.c * x.h * x.w⟩

/-- `nn.Linear(in_features, out_features)` on shapes: the feature count of
the input must equal `in_features`. -/
def linearShape (inF outF : Nat) (x : Shape2) : Option Shape2 :=
  if x.features = inF then some ⟨x.n, outF⟩ else none

/-! ## `MainModel` of STFT-CNN.ipynb

`conv1 = Conv2d(3, 6, (5,5), stride=1)`, `pool1 = AvgPool2d((2,2), stride=2)`,
`conv2 = Conv2d(6, 12, (5,5), stride=1)`, `pool2 = AvgPool2d((2,2), stride=2)`,
`flat = Flatten()`, `fc = Linear(588, num_classes)`;
`forward`: conv1, relu, pool1, conv2, relu, pool2, flat, fc. -/

def MainModel_forward (numClasses : Nat) (x : Shape4) : Option Shape2 := do
  let x ← conv2d 3 6 5 1 0 x
  let x := reluShape x
  let x ← avgPool2d 2 2 x
  let x ← conv2d 6 12 5 1 0 x
  let x := reluShape x
  let x ← avgPool2d 2 2 x
  let x := flattenShape x
  linearShape 588 numClasses x

/-- The convolutional stack of `MainModel` up to (and including) `pool2`,
i.e. the tensor that `nn.Flatten` receives. -/
def MainModel_convStack (x : Shape4) : Option Shape4 := do
  let x ← conv2d 3 6 5 1 0 x
  let x := reluShape x
  let x ← avgPool2d 2 2 x
  let x ← conv2d 6 12 5 1 0 x
  let x := reluShape x
  avgPool2d 2 2 x

/-! ## `encoder`, `decoder`, `decoder_4` and `LDC_Unet` of LDC-Unet.ipynb -/

/-- `encoder(in_channels, out_channels)`:
`conv1 = Conv2d(in, out, 3, stride=2, padding=1)`,
`conv2 = Conv2d(in, out, 3, stride=2, padding=1)`,
`conv3 = Conv2d(out, out, 3, stride=1, padding=1)`;
`forward`: `x1 = relu(conv1 x)`, `x2 = conv3 (relu (conv2 x))`, `x1 + x2`. -/
def encoder_forward (inC outC : Nat) (x : Shape4) : Option Shape4 := do
  let x1 ← conv2d inC outC 3 2 1 x
  let x1 := reluShape x1
  let x2 ← conv2d inC outC 3 2 1 x
  let x2 := reluShape x2
  let x2 ← conv2d outC outC 3 1 1 x2
  addShapes x1 x2

/-- `decoder(c1, c2, c3, c4)`: pooled, identity, and two upsampled branches,
each followed by a 3x3 conv to 64 channels, concatenated on dim 1. -/
def decoder_forward (c1 c2 c3 c4 : Nat) (x1 x2 x3 x4 : Shape4) :
    Option Shape4 := do
  let x1 ← maxPool2d 2 2 x1
  let x1 ← conv2d c1 64 3 1 1 x1
  let x2 ← conv2d c2 64 3 1 1 x2
  let x3 := upsample2x x3
  let x3 ← conv2d c3 64 3 1 1 x3
  let x4 := upsample2x x4
  let x4 ← conv2d c4 64 3 1 1 x4
  catChannels [x1, x2, x3, x4]

/-- `decoder_4(c1, c2, c3)`: as `decoder` but with three branches. -/
def decoder_4_forward (c1 c2 c3 : Nat) (x1 x2 x3 : Shape4) :
    Option Shape4 := do
  let x1 ← maxPool2d 2 2 x1
  let x1 ← conv2d c1 64 3 1 1 x1
  let x2 ← conv2d c2 64 3 1 1 x2
  let x3 := upsample2x x3
  let x3 ← conv2d c3 64 3 1 1 x3
  catChannels [x1, x2, x3]

/-- `LDC_Unet.forward`: five stride-2 encoders, four decoders wired to the
encoder taps, a final upsample and two 3x3 convolutions back to 3 channels. -/
def LDC_Unet_forward (x : Shape4) : Option Shape4 := do
  let x0 := x
  let xe1 ← encoder_forward 3 64 x0
  let xe2 ← encoder_forward 64 128 xe1
  let xe3 ← encoder_forward 128 256 xe2
  let xe4 ← encoder_forward 256 256 xe3
  let xe5 ← encoder_forward 256 512 xe4
  let xd4 ← decoder_4_forward 256 256 512 xe3 xe4 xe5
  let xd3 ← decoder_forward 128 256 256 192 xe2 xe3 xe4 xd4
  let xd2 ← decoder_forward 64 128 256 256 xe1 xe2 xe3 xd3
  let xd1 ← decoder_forward 3 64 128 256 x0 xe1 xe2 xd2
  let y := upsample2x xd1
  let y ← conv2d 256 64 3 1 1 y
  conv2d 64 3 3 1 1 y

/-! ## Claims C5 and C6 -/

set_option maxHeartbeats 1000000 in
set_option maxRecDepth 4096 in
/-- C5: for every batch of `N` images of shape 3x40x40 the STFT-CNN
`MainModel` forward pass is shape-correct and returns `N x num_classes`
logits; the stack conv(3→6,5x5) / avgpool 2x2 / conv(6→12,5x5) / avgpool 2x2
maps 40x40 to 12 channels of 7x7, so the flattened vector has exactly
`12*7*7 = 588` entries, matching `fc`'s `in_features`. -/
theorem C5_MainModel_shape_correct (n numClasses : Nat) :
    MainModel_forward numClasses ⟨n, 3, 40, 40⟩ = some ⟨n, numClasses⟩ ∧
    MainModel_convStack ⟨n, 3, 40, 40⟩ = some ⟨n, 12, 7, 7⟩ ∧
    (flattenShape ⟨n, 12, 7, 7⟩).features = 588 := by
  refine ⟨?_, ?_, rfl⟩
  · unfold MainModel_forward
    norm_num [conv2d, avgPool2d, reluShape, flattenShape, linearShape,
      convOutDim, Option.bind]
  · unfold MainModel_convStack
    norm_num [conv2d, avgPool2d, reluShape, convOutDim, Option.bind]

set_option maxHeartbeats 2000000 in
set_option maxRecDepth 8192 in
/-- C6: for every batch of shape `N x 3 x 64 x 64`, `LDC_Unet.forward`
returns a tensor of the same shape: the five stride-2 encoder stages halve
the spatial size down to 2x2, every decoder's branches land on a common
spatial size (so each channel concatenation is well-formed, `decoder_4`
producing 192 channels and each `decoder` 256 channels, matching the next
decoder's `c4` input), and the final upsample plus two convolutions restore
3 channels at 64x64. -/
theorem C6_LDC_Unet_shape_correct (n : Nat) :
    LDC_Unet_forward ⟨n, 3, 64, 64⟩ = some ⟨n, 3, 64, 64⟩ ∧
    encoder_forward 3 64 ⟨n, 3, 64, 64⟩ = some ⟨n, 64, 32, 32⟩ ∧
    encoder_forward 256 512 ⟨n, 256, 4, 4⟩ = some ⟨n, 512, 2, 2⟩ ∧
    decoder_4_forward 256 256 512 ⟨n, 256, 8, 8⟩ ⟨n, 256, 4, 4⟩ ⟨n, 512, 2, 2⟩
      = some ⟨n, 192, 4, 4⟩ ∧
    decoder_forward 128 256 256 192 ⟨n, 128, 16, 16⟩ ⟨n, 256, 8, 8⟩
      ⟨n, 256, 4, 4⟩ ⟨n, 192, 4, 4⟩ = some ⟨n, 256, 8, 8⟩ ∧
    decoder_forward 3 64 128 256 ⟨n, 3, 64, 64⟩ ⟨n, 64, 32, 32⟩
      ⟨n, 128, 16, 16⟩ ⟨n, 256, 16, 16⟩ = some ⟨n, 256, 32, 32⟩ := by
  refine ⟨?_, ?_, ?_, ?_, ?_, ?_⟩
  · unfold LDC_Unet_forward encoder_forward decoder_forward decoder_4_forward
    norm_num [conv2d, maxPool2d, upsample2x, addShapes, catChannels, reluShape,
      convOutDim, Option.bind]
  · unfold encoder_forward
    norm_num [conv2d, addShapes, reluShape, convOutDim, Option.bind]
  · unfold encoder_forward
    norm_num [conv2d, addShapes, reluShape, convOutDim, Option.bind]
  · unfold decoder_4_forward
    norm_num [conv2d, maxPool2d, upsample2x, catChannels, convOutDim,
      Option.bind]
  · unfold decoder_forward
    norm_num [conv2d, maxPool2d, upsample2x, catChannels, convOutDim,
      Option.bind]
  · unfold decoder_forward
    norm_num [conv2d, maxPool2d, upsample2x, catChannels, convOutDim,
      Option.bind]

/-! ## `SSRLoss` of LDC-Unet.ipynb

Batches are lists of rows; `torch.mean` over a tensor is the mean of all of
its elements.  `nn.CrossEntropyLoss()` is a framework primitive stored in the
`cross_entropy` field, exactly as the source stores it on `self`; the claim
treats it as opaque. -/

/-- `torch.mean` of a tensor, given its elements: sum divided by count. -/
def meanQ (xs : List ℚ) : ℚ := xs.sum / (xs.length : ℚ)
/-- The state `SSRLoss.__init__` stores on `self`. -/
structure SSRLoss where
  num_classes : Nat
  feature_dim : Nat
  lambda_reg : ℚ
  centers : List (List ℚ)
  cross_entropy : List (List ℚ) → List Nat → ℚ
/-- `SSRLoss(num_classes, feature_dim)` with the default `lambda_reg=0.12`;
`centers` stands for the `torch.randn(num_classes, feature_dim)` draw and
`ce` for the `nn.CrossEntropyLoss()` primitive. -/
def SSRLoss.init (numClasses featureDim : Nat) (centers : List (List ℚ))
    (ce : List (List ℚ) → List Nat → ℚ) : SSRLoss :=
  ⟨numClasses, featureDim, 12 / 100, centers, ce⟩
/-- `SSRLoss.forward(features, labels, logits)`:
`loss_softmax = self.cross_entropy(logits, labels)`,
`centers_batch = self.centers[labels]`,
`loss_reg = torch.mean(torch.abs(features - centers_batch))`,
`loss = loss_softmax + self.lambda_reg * loss_reg`. -/
def SSRLoss.forward (s : SSRLoss) (features : List (List ℚ))
    (labels : List Nat) (logits : List (List ℚ)) : ℚ :=
  let loss_softmax := s.cross_entropy logits labels
  let centers_batch := labels.map fun l => s.centers.getD l []
  let loss_reg := meanQ
    (List.zipWith (fun fr cr => List.zipWith (fun a b => |a - b|) fr cr)
      features centers_batch).flatten
  loss_softmax + s.lambda_reg * loss_reg
/-- The regularisation term as the claim words it: the mean, over every
sample `i` and feature coordinate `j`, of the absolute difference between
the sample's feature vector and the learnable center of its labelled
class. -/
def centerL1Mean (centers features : List (List ℚ)) (labels : List Nat)
    (featureDim : Nat) : ℚ :=
  (((List.range features.length).map fun i =>
      ((List.range featureDim).map fun j =>
        |(features.getD i []).getD j 0 -
          (centers.getD (labels.getD i 0) []).getD j 0|).sum).sum) /
    ((features.length * featureDim : Nat) : ℚ)

theorem zipAbs_row_spec (d : Nat) (fr : List ℚ) :
    ∀ cr : List ℚ, fr.length = d → cr.length = d →
      (List.zipWith (fun a b => |a - b|) fr cr).sum
          = ((List.range d).map fun j => |fr.getD j 0 - cr.getD j 0|).sum ∧
        (List.zipWith (fun a b => |a - b|) fr cr).length = d := by
  induction fr generalizing d with
  | nil =>
    intro cr hf hc
    have hd : d = 0 := by simpa using hf.symm
    subst hd
    have hcr : cr = [] := List.length_eq_zero.mp hc
    subst hcr
    simp
  | cons a fr ih =>
    intro cr hf hc
    have hd : d = fr.length + 1 := by simpa using hf.symm
    subst hd
    match cr, hc with
    | b :: cr, hc =>
      have hc' : cr.length = fr.length := by simpa using hc
      obtain ⟨ihs, ihl⟩ := ih fr.length cr rfl hc'
      constructor
      · rw [List.zipWith_cons_cons, List.sum_cons, ihs,
          List.range_succ_eq_map, List.map_cons, List.map_map]
        simp [Function.comp_def]
      · simpa using ihl

theorem zipAbs_rows_spec (d : Nat) (fs : List (List ℚ)) :
    ∀ cs : List (List ℚ), fs.length = cs.length →
      (∀ r ∈ fs, r.length = d) → (∀ r ∈ cs, r.length = d) →
      (List.zipWith (fun fr cr => List.zipWith (fun a b => |a - b|) fr cr)
          fs cs).flatten.sum
          = ((List.range fs.length).map fun i =>
              ((List.range d).map fun j =>
                |(fs.getD i []).getD j 0 - (cs.getD i []).getD j 0|).sum).sum ∧
        (List.zipWith (fun fr cr => List.zipWith (fun a b => |a - b|) fr cr)
          fs cs).flatten.length = fs.length * d := by
  induction fs with
  | nil =>
    intro cs hlen _ _
    simp
  | cons fr fs ih =>
    intro cs hlen hf hc
    match cs, hlen with
    | cr :: cs, hlen =>
      have hlen' : fs.length = cs.length := by simpa using hlen
      have hfr : fr.length = d := hf fr (by simp)
      have hcr : cr.length = d := hc cr (by simp)
      obtain ⟨rowS, rowL⟩ := zipAbs_row_spec d fr cr hfr hcr
      obtain ⟨ihS, ihL⟩ := ih cs hlen'
        (fun r hr => hf r (List.mem_cons_of_mem _ hr))
        (fun r hr => hc r (List.mem_cons_of_mem _ hr))
      constructor
      · rw [List.zipWith_cons_cons, List.flatten_cons, List.sum_append,
          rowS, ihS, List.length_cons, List.range_succ_eq_map, List.map_cons,
          List.sum_cons, List.map_map]
        simp [Function.comp_def]
      · rw [List.zipWith_cons_cons, List.flatten_cons, List.length_append,
          rowL, ihL, List.length_cons]
        ring

/-- C1: for every call to `SSRLoss.forward(features, labels, logits)` (on
shape-conforming tensors) the returned loss equals the cross-entropy of the
logits against the labels plus `lambda_reg` times the mean absolute
difference between each sample's feature vector and the learnable center of
its labelled class, and `lambda_reg` defaults to `0.12`. -/
theorem C1_SSRLoss_forward_decomposition
    (nc fd : Nat) (lam : ℚ) (centers : List (List ℚ))
    (ce : List (List ℚ) → List Nat → ℚ)
    (features : List (List ℚ)) (labels : List Nat) (logits : List (List ℚ))
    (hB : features.length = labels.length)
    (hf : ∀ r ∈ features, r.length = fd)
    (hcrows : ∀ r ∈ centers, r.length = fd)
    (hcn : centers.length = nc)
    (hl : ∀ l ∈ labels, l < nc) :
    SSRLoss.forward ⟨nc, fd, lam, centers, ce⟩ features labels logits
        = ce logits labels + lam * centerL1Mean centers features labels fd ∧
      (SSRLoss.init nc fd centers ce).lambda_reg = 12 / 100 := by
  refine ⟨?_, rfl⟩
  have hcb_len : features.length
      = (labels.map fun l => centers.getD l []).length := by
    simpa using hB
  have hcb_rows : ∀ r ∈ (labels.map fun l => centers.getD l []),
      r.length = fd := by
    intro r hr
    obtain ⟨l, hlmem, rfl⟩ := List.mem_map.mp hr
    have hlt : l < centers.length := by rw [hcn]; exact hl l hlmem
    rw [List.getD_eq_getElem _ _ hlt]
    exact hcrows _ (List.getElem_mem hlt)
  obtain ⟨hS, hL⟩ := zipAbs_rows_spec fd features
    (labels.map fun l => centers.getD l []) hcb_len hf hcb_rows
  show ce logits labels + lam * meanQ _ = _
  unfold meanQ centerL1Mean
  rw [hS, hL]
  have hmaps : ((List.range features.length).map fun i =>
        ((List.range fd).map fun j =>
          |(features.getD i []).getD j 0 -
            ((labels.map fun l => centers.getD l []).getD i []).getD j 0|).sum)
      = ((List.range features.length).map fun i =>
        ((List.range fd).map fun j =>
          |(features.getD i []).getD j 0 -
            (centers.getD (labels.getD i 0) []).getD j 0|).sum) := by
    refine List.map_congr_left ?_
    intro i hi
    have hiB : i < labels.length := by
      rw [← hB]; exact List.mem_range.mp hi
    have hcb : (labels.map fun l => centers.getD l []).getD i []
        = centers.getD (labels.getD i 0) [] := by
      rw [List.getD_eq_getElem _ _ (by simpa using hiB),
        List.getD_eq_getElem _ _ hiB]
      simp
    rw [hcb]
  rw [hmaps]


/-! ## `prepare_dataloader` (defined identically in both notebooks)

Only the type checks and shape munging are observable at this level; the
`DataLoader` construction itself is a framework call recorded by the fields
it is given.  The source defaults (`batch_size=32`, `shuffle=False`,
`num_workers=2`, `device="cpu"`) play no role in the claim. -/

inductive PyVal where
  | ndarray (shape : List Nat)
  | tensor (shape : List Nat)
  | other (tag : String)
  deriving DecidableEq, Repr

inductive PyError where
  | typeError (msg : String)
  deriving DecidableEq, Repr

structure DataLoaderModel where
  xShape : List Nat
  yShape : List Nat
  batch_size : Nat
  shuffle : Bool
  num_workers : Nat
  pin_memory : Bool
  deriving DecidableEq, Repr

def asTensorShape (v : PyVal) (msg : String) : Except PyError (List Nat) :=
  match v with
  | .ndarray s => .ok s
  | .tensor s => .ok s
  | .other _ => .error (.typeError msg)

def fixXDims (s : List Nat) : List Nat :=
  match s with
  | [n, h, w] => [n, 1, h, w]
  | [n, h, w, c] => if c = 1 ∨ c = 3 then [n, c, h, w] else [n, h, w, c]
  | s => s

def prepare_dataloader (X y : PyVal) (batch_size : Nat) (shuffle : Bool)
    (num_workers : Nat) (device : String) : Except PyError DataLoaderModel :=
  match asTensorShape X "Input X must be a NumPy array or PyTorch tensor" with
  | .error e => .error e
  | .ok xs =>
    match asTensorShape y "Labels y must be a NumPy array or PyTorch tensor" with
    | .error e => .error e
    | .ok ys =>
      .ok ⟨fixXDims xs, ys, batch_size, shuffle, num_workers, device == "cuda"⟩

def isArrayOrTensor : PyVal → Bool
  | .other _ => false
  | _ => true




/-- C3: `prepare_dataloader` raises `TypeError` if and only if `X` is
neither a NumPy `ndarray` nor a torch `Tensor`, or `y` is neither; for every
`X` and `y` that are each an ndarray or a Tensor no type check fails and a
`DataLoader` is returned, and every error the function can raise is a
`TypeError`. -/
theorem C3_prepare_dataloader_type_check
    (X y : PyVal) (batch_size : Nat) (shuffle : Bool) (num_workers : Nat)
    (device : String) :
    ((∃ d, prepare_dataloader X y batch_size shuffle num_workers device
        = Except.ok d)
      ↔ isArrayOrTensor X = true ∧ isArrayOrTensor y = true) ∧
    (∀ e, prepare_dataloader X y batch_size shuffle num_workers device
        = Except.error e → ∃ msg, e = PyError.typeError msg) := by
  cases X <;> cases y <;>
    simp [prepare_dataloader, asTensorShape, isArrayOrTensor]

/-! ## `load_spectrogram_h5s` (defined identically in both notebooks)

The filesystem below `root_folder` is modelled as the list of the requested
`mod_types` together with `none` when `os.path.exists` fails, or the
directory listing otherwise.  Each file carries the `(int(key), value)`
pairs its h5 read yields before any exception and a flag saying whether an
exception (at open or midway) then interrupts the `try` block; the `except`
arm prints the message and continues with the next file. -/

def pyEndsWith (s suf : String) : Bool := suf.data.isSuffixOf s.data

def pyDropRight (s : String) (n : Nat) : String :=
  String.mk (s.data.take (s.data.length - n))

structure H5File (α : Type) where
  name : String
  entries : List (Nat × α)
  fails : Bool
  deriving DecidableEq, Repr

def pySet {κ β : Type} [DecidableEq κ] :
    List (κ × β) → κ → β → List (κ × β)
  | [], k, v => [(k, v)]
  | (k', v') :: rest, k, v =>
    if k' = k then (k', v) :: rest else (k', v') :: pySet rest k v

def pyGet? {κ β : Type} [DecidableEq κ] : List (κ × β) → κ → Option β
  | [], _ => none
  | (k', v') :: rest, k => if k' = k then some v' else pyGet? rest k

def setInner {α : Type} (d : List (String × List (Nat × α))) (name : String)
    (kv : Nat × α) : List (String × List (Nat × α)) :=
  match pyGet? d name with
  | some inner => pySet d name (pySet inner kv.1 kv.2)
  | none => d

def loadFile {α : Type} (d : List (String × List (Nat × α))) (f : H5File α) :
    List (String × List (Nat × α)) :=
  let mod_name := pyDropRight f.name 3
  let d1 := pySet d mod_name []
  match (f.entries.foldl (fun dd kv => setInner dd mod_name kv) d1,
         if f.fails then some ("Failed to load " ++ f.name) else none) with
  | (d2, some _msg) => d2
  | (d2, none) => d2

def loadModDir {α : Type} (d : List (String × List (Nat × α)))
    (m : String × Option (List (H5File α))) :
    List (String × List (Nat × α)) :=
  match m.2 with
  | none => d
  | some listing =>
    (listing.filter fun f => pyEndsWith f.name ".h5").foldl loadFile d

def load_spectrogram_h5s {α : Type}
    (mods : List (String × Option (List (H5File α)))) :
    List (String × List (Nat × α)) :=
  mods.foldl loadModDir []

def clearFails {α : Type} (mods : List (String × Option (List (H5File α)))) :
    List (String × Option (List (H5File α))) :=
  mods.map fun m =>
    (m.1, m.2.map (List.map fun f => ⟨f.name, f.entries, false⟩))

def h5Stems {α : Type} (mods : List (String × Option (List (H5File α)))) :
    List String :=
  mods.flatMap fun m =>
    match m.2 with
    | none => []
    | some listing =>
      (listing.filter fun f => pyEndsWith f.name ".h5").map
        fun f => pyDropRight f.name 3

def fileInnerDict {α : Type} (f : H5File α) : List (Nat × α) :=
  f.entries.foldl (fun inner kv => pySet inner kv.1 kv.2) []

theorem pyGet?_pySet_self {κ β : Type} [DecidableEq κ]
    (d : List (κ × β)) (k : κ) (v : β) :
    pyGet? (pySet d k v) k = some v := by
  induction d with
  | nil => simp [pySet, pyGet?]
  | cons p rest ih =>
    by_cases h : p.1 = k <;> simp [pySet, pyGet?, h, ih]

theorem pyGet?_pySet_ne {κ β : Type} [DecidableEq κ]
    (d : List (κ × β)) (k k' : κ) (v : β) (h : k' ≠ k) :
    pyGet? (pySet d k v) k' = pyGet? d k' := by
  induction d with
  | nil => simp [pySet, pyGet?, Ne.symm h]
  | cons p rest ih =>
    by_cases hp : p.1 = k
    · subst hp
      simp [pySet, pyGet?, Ne.symm h]
    · simp only [pySet, if_neg hp]
      by_cases hp' : p.1 = k' <;> simp [pyGet?, hp', ih]

theorem foldEntries_get_self {α : Type} (entries : List (Nat × α)) :
    ∀ (d : List (String × List (Nat × α))) (name : String)
      (inner : List (Nat × α)), pyGet? d name = some inner →
      pyGet? (entries.foldl (fun dd kv => setInner dd name kv) d) name
        = some (entries.foldl (fun i kv => pySet i kv.1 kv.2) inner) := by
  induction entries with
  | nil => intro d name inner h; simpa using h
  | cons kv rest ih =>
    intro d name inner h
    simp only [List.foldl_cons]
    exact ih _ name _ (by simp [setInner, h, pyGet?_pySet_self])

theorem foldEntries_get_ne {α : Type} (entries : List (Nat × α)) :
    ∀ (d : List (String × List (Nat × α))) (name k : String), k ≠ name →
      pyGet? (entries.foldl (fun dd kv => setInner dd name kv) d) k
        = pyGet? d k := by
  induction entries with
  | nil => intro d name k _; rfl
  | cons kv rest ih =>
    intro d name k h
    simp only [List.foldl_cons]
    rw [ih _ name k h]
    unfold setInner
    cases pyGet? d name with
    | none => rfl
    | some inner => exact pyGet?_pySet_ne _ _ _ _ h

theorem loadFile_eq {α : Type} (d : List (String × List (Nat × α)))
    (f : H5File α) :
    loadFile d f = f.entries.foldl
      (fun dd kv => setInner dd (pyDropRight f.name 3) kv)
      (pySet d (pyDropRight f.name 3) []) := by
  cases hf : f.fails <;> simp [loadFile, hf]

theorem loadFile_get_self {α : Type} (d : List (String × List (Nat × α)))
    (f : H5File α) :
    pyGet? (loadFile d f) (pyDropRight f.name 3) = some (fileInnerDict f) := by
  rw [loadFile_eq]
  exact foldEntries_get_self _ _ _ _ (pyGet?_pySet_self d _ [])

theorem loadFile_get_ne {α : Type} (d : List (String × List (Nat × α)))
    (f : H5File α) (k : String) (h : k ≠ pyDropRight f.name 3) :
    pyGet? (loadFile d f) k = pyGet? d k := by
  rw [loadFile_eq, foldEntries_get_ne _ _ _ _ h, pyGet?_pySet_ne _ _ _ _ h]

theorem foldFiles_get_ne {α : Type} (files : List (H5File α)) :
    ∀ (d : List (String × List (Nat × α))) (k : String),
      k ∉ files.map (fun f => pyDropRight f.name 3) →
      pyGet? (files.foldl loadFile d) k = pyGet? d k := by
  induction files with
  | nil => intro d k _; rfl
  | cons g rest ih =>
    intro d k h
    simp only [List.map_cons, List.mem_cons, not_or] at h
    simp only [List.foldl_cons]
    rw [ih _ k h.2, loadFile_get_ne _ _ _ h.1]

theorem foldFiles_get_self {α : Type} (files : List (H5File α)) :
    ∀ (d : List (String × List (Nat × α))) (f : H5File α), f ∈ files →
      (files.map fun g => pyDropRight g.name 3).Nodup →
      pyGet? (files.foldl loadFile d) (pyDropRight f.name 3)
        = some (fileInnerDict f) := by
  induction files with
  | nil => intro d f h; exact absurd h (List.not_mem_nil f)
  | cons g rest ih =>
    intro d f hmem hnd
    simp only [List.map_cons, List.nodup_cons] at hnd
    rcases List.mem_cons.mp hmem with rfl | hmem'
    · simp only [List.foldl_cons]
      rw [foldFiles_get_ne rest _ _ hnd.1, loadFile_get_self]
    · exact ih _ f hmem' hnd.2

theorem foldMods_get_ne {α : Type}
    (mods : List (String × Option (List (H5File α)))) :
    ∀ (d : List (String × List (Nat × α))) (k : String), k ∉ h5Stems mods →
      pyGet? (mods.foldl loadModDir d) k = pyGet? d k := by
  induction mods with
  | nil => intro d k _; rfl
  | cons m rest ih =>
    intro d k h
    rw [h5Stems, List.flatMap_cons] at h
    simp only [List.mem_append, not_or] at h
    simp only [List.foldl_cons]
    rw [ih _ k h.2]
    obtain ⟨mt, olisting⟩ := m
    cases olisting with
    | none => rfl
    | some listing =>
      exact foldFiles_get_ne _ _ _ (by simpa using h.1)

theorem foldMods_get_self {α : Type}
    (mods : List (String × Option (List (H5File α)))) :
    ∀ (d : List (String × List (Nat × α))) (mt : String)
      (listing : List (H5File α)) (f : H5File α),
      (h5Stems mods).Nodup → (mt, some listing) ∈ mods → f ∈ listing →
      pyEndsWith f.name ".h5" = true →
      pyGet? (mods.foldl loadModDir d) (pyDropRight f.name 3)
        = some (fileInnerDict f) := by
  induction mods with
  | nil => intro d mt listing f _ h; exact absurd h (List.not_mem_nil _)
  | cons m rest ih =>
    intro d mt listing f hnd hmem hf hh5
    rw [h5Stems, List.flatMap_cons] at hnd
    rw [List.nodup_append] at hnd
    simp only [List.foldl_cons]
    rcases List.mem_cons.mp hmem with rfl | hmem'
    · have hfilter : f ∈ listing.filter fun g => pyEndsWith g.name ".h5" :=
        List.mem_filter.mpr ⟨hf, hh5⟩
      have hstem : pyDropRight f.name 3
          ∈ (listing.filter fun g => pyEndsWith g.name ".h5").map
              fun g => pyDropRight g.name 3 :=
        List.mem_map_of_mem _ hfilter
      rw [foldMods_get_ne rest _ _ (fun hc => hnd.2.2 (by simpa using hstem) hc)]
      exact foldFiles_get_self _ _ f hfilter (by simpa using hnd.1)
    · exact ih _ mt listing f hnd.2.1 hmem' hf hh5

theorem loadFile_clearFile {α : Type} (d : List (String × List (Nat × α)))
    (f : H5File α) :
    loadFile d ⟨f.name, f.entries, false⟩ = loadFile d f := by
  rw [loadFile_eq, loadFile_eq]

theorem foldl_loadFile_clearFile {α : Type} (L : List (H5File α)) :
    ∀ d : List (String × List (Nat × α)),
      L.foldl (fun dd f => loadFile dd ⟨f.name, f.entries, false⟩) d
        = L.foldl loadFile d := by
  induction L with
  | nil => intro d; rfl
  | cons f L ih =>
    intro d
    simp only [List.foldl_cons]
    rw [loadFile_clearFile]
    exact ih _

theorem foldFiles_clearFile {α : Type} (L : List (H5File α)) :
    ∀ d : List (String × List (Nat × α)),
      ((L.map fun f => H5File.mk f.name f.entries false).filter
          fun f => pyEndsWith f.name ".h5").foldl loadFile d
        = (L.filter fun f => pyEndsWith f.name ".h5").foldl loadFile d := by
  intro d
  have hfilter : ((L.map fun f => H5File.mk f.name f.entries false).filter
        fun f => pyEndsWith f.name ".h5")
      = (L.filter fun f => pyEndsWith f.name ".h5").map
          fun f => H5File.mk f.name f.entries false := by
    induction L with
    | nil => rfl
    | cons f L ih =>
      simp only [List.map_cons, List.filter_cons]
      cases ht : pyEndsWith f.name ".h5" <;> simp [ht, ih]
  rw [hfilter, List.foldl_map]
  exact foldl_loadFile_clearFile _ d

theorem loadModDir_clearFails {α : Type} (d : List (String × List (Nat × α)))
    (m : String × Option (List (H5File α))) :
    loadModDir d (m.1, m.2.map (List.map fun f => ⟨f.name, f.entries, false⟩))
      = loadModDir d m := by
  obtain ⟨mt, olisting⟩ := m
  cases olisting with
  | none => rfl
  | some listing => exact foldFiles_clearFile listing d

theorem load_clearFails {α : Type}
    (mods : List (String × Option (List (H5File α)))) :
    ∀ d : List (String × List (Nat × α)),
      (clearFails mods).foldl loadModDir d = mods.foldl loadModDir d := by
  induction mods with
  | nil => intro d; rfl
  | cons m rest ih =>
    intro d
    simp only [clearFails, List.map_cons, List.foldl_cons]
    rw [loadModDir_clearFails]
    exact ih _

/-- C4 (on filesystems whose listed `.h5` files have pairwise distinct
stems): when reading a `.h5` file raises midway, `load_spectrogram_h5s`
swallows the exception and returns normally; the entry created for that
file before the failure remains in the returned dictionary, holding exactly
the key/value pairs read before the exception, and the entries of every
other file are unaffected — indeed the result does not depend on which
files fail at all. -/
theorem C4_load_spectrogram_h5s_error_handling {α : Type}
    (mods : List (String × Option (List (H5File α))))
    (hnd : (h5Stems mods).Nodup) :
    (∀ (mt : String) (listing : List (H5File α)) (f : H5File α),
        (mt, some listing) ∈ mods → f ∈ listing →
        pyEndsWith f.name ".h5" = true →
        pyGet? (load_spectrogram_h5s mods) (pyDropRight f.name 3)
          = some (fileInnerDict f)) ∧
      load_spectrogram_h5s (clearFails mods) = load_spectrogram_h5s mods := by
  constructor
  · intro mt listing f hmem hf hh5
    exact foldMods_get_self mods [] mt listing f hnd hmem hf hh5
  · exact load_clearFails mods []

theorem C4_witness :
    pyGet? (load_spectrogram_h5s
        [("FM", some [⟨"lfm_up.h5", [(1, 10), (0, 20)], true⟩,
                      ⟨"costas.h5", [(0, 7)], false⟩,
                      ⟨"readme.txt", [], false⟩]),
         ("PM", (none : Option (List (H5File Nat))))])
      (pyDropRight "lfm_up.h5" 3)
      = some (fileInnerDict ⟨"lfm_up.h5", [(1, 10), (0, 20)], true⟩) ∧
    load_spectrogram_h5s (clearFails
        [("FM", some [⟨"lfm_up.h5", [(1, 10), (0, 20)], true⟩,
                      ⟨"costas.h5", [(0, 7)], false⟩,
                      ⟨"readme.txt", [], false⟩]),
         ("PM", (none : Option (List (H5File Nat))))])
      = load_spectrogram_h5s
        [("FM", some [⟨"lfm_up.h5", [(1, 10), (0, 20)], true⟩,
                      ⟨"costas.h5", [(0, 7)], false⟩,
                      ⟨"readme.txt", [], false⟩]),
         ("PM", (none : Option (List (H5File Nat))))] := by
  have h := C4_load_spectrogram_h5s_error_handling
    [("FM", some [⟨"lfm_up.h5", [(1, 10), (0, 20)], true⟩,
                  ⟨"costas.h5", [(0, 7)], false⟩,
                  ⟨"readme.txt", [], false⟩]),
     ("PM", (none : Option (List (H5File Nat))))] (by decide)
  exact ⟨h.1 "FM"
    [⟨"lfm_up.h5", [(1, 10), (0, 20)], true⟩,
     ⟨"costas.h5", [(0, 7)], false⟩,
     ⟨"readme.txt", [], false⟩]
    ⟨"lfm_up.h5", [(1, 10), (0, 20)], true⟩
    (by decide) (by decide) (by decide), h.2⟩


theorem C1_witness :
    SSRLoss.forward ⟨2, 2, 12 / 100, [[0, 0], [1, 1]], fun _ _ => 5⟩
        [[1, 2]] [1] [[0, 0]]
        = (fun (_ : List (List ℚ)) (_ : List Nat) => (5 : ℚ)) [[0, 0]] [1]
          + 12 / 100 * centerL1Mean [[0, 0], [1, 1]] [[1, 2]] [1] 2 ∧
      (SSRLoss.init 2 2 [[0, 0], [1, 1]] fun _ _ => 5).lambda_reg
        = 12 / 100 :=
  C1_SSRLoss_forward_decomposition 2 2 (12 / 100) [[0, 0], [1, 1]]
    (fun _ _ => 5) [[1, 2]] [1] [[0, 0]] (by decide) (by decide) (by decide)
    (by decide) (by decide)

/-! ## `pre_processing` of STFT-CNN.ipynb

Images are lists of rows of rationals; `cv2.resize` is an external
framework primitive taken as a parameter, constrained only by the spatial
size `(40, 40)` it is asked for. -/

/-- `np.var` of the elements of a tensor: the mean squared deviation. -/
def varQ (xs : List ℚ) : ℚ := meanQ (xs.map fun v => (v - meanQ xs) ^ 2)

/-- One pass of the normalisation loop body of `pre_processing`:
`mean = np.mean(img)`, `std = np.var(img)` (the variable is named `std` but
holds the variance), `img = (img - mean) / std`; `none` when the division
is undefined. -/
def normalizeStep (img : List (List ℚ)) : Option (List (List ℚ)) :=
  let m := meanQ img.flatten
  let v := varQ img.flatten
  if v = 0 then none else some (img.map (List.map fun x => (x - m) / v))

/-- `n`-fold composition of a possibly-undefined step (`for _ in
range(iterations)`). -/
def iterateOpt {β : Type} : Nat → (β → Option β) → β → Option β
  | 0, _, b => some b
  | n + 1, f, b => (f b).bind (iterateOpt n f)

/-- `processed_image[processed_image < 0] = 0`. -/
def clampNeg (img : List (List ℚ)) : List (List ℚ) :=
  img.map (List.map fun x => if x < 0 then 0 else x)

/-- `pre_processing(images)` of STFT-CNN.ipynb: each image is resized to
`target_size = (40, 40)` by the framework primitive `cv2.resize(...,
INTER_AREA)` (passed in as `resize`), cast to float, normalised by the loop
body `iterations = 6` times, and finally its strictly negative entries are
zeroed.  `none` models the loop hitting an undefined division. -/
def pre_processing (resize : List (List ℚ) → List (List ℚ)) :
    List (List (List ℚ)) → Option (List (List (List ℚ)))
  | [] => some []
  | image :: rest => do
    let processed ← (iterateOpt 6 normalizeStep (resize image)).map clampNeg
    let others ← pre_processing resize rest
    pure (processed :: others)

theorem normalizeStep_dims (img img' : List (List ℚ))
    (h : normalizeStep img = some img') :
    img'.length = img.length ∧ img'.map List.length = img.map List.length := by
  unfold normalizeStep at h
  by_cases hv : varQ img.flatten = 0
  · simp [hv] at h
  · simp only [if_neg hv, Option.some_inj] at h
    subst h
    constructor
    · simp
    · rw [List.map_map]
      refine List.map_congr_left ?_
      intro r _
      simp

theorem iterateOpt_dims (n : Nat) :
    ∀ img img' : List (List ℚ), iterateOpt n normalizeStep img = some img' →
      img'.length = img.length ∧
        img'.map List.length = img.map List.length := by
  induction n with
  | zero =>
    intro img img' h
    cases h
    exact ⟨rfl, rfl⟩
  | succ n ih =>
    intro img img' h
    unfold iterateOpt at h
    cases hm : normalizeStep img with
    | none => rw [hm] at h; cases h
    | some mid =>
      rw [hm] at h
      obtain ⟨h1, h2⟩ := normalizeStep_dims img mid hm
      obtain ⟨h3, h4⟩ := ih mid img' h
      exact ⟨h3.trans h1, h4.trans h2⟩

theorem clampNeg_dims (img : List (List ℚ)) :
    (clampNeg img).length = img.length ∧
      (clampNeg img).map List.length = img.map List.length := by
  constructor
  · simp [clampNeg]
  · rw [clampNeg, List.map_map]
    refine List.map_congr_left ?_
    intro r _
    simp

theorem clampNeg_nonneg (img : List (List ℚ)) :
    ∀ r ∈ clampNeg img, ∀ x ∈ r, 0 ≤ x := by
  intro r hr x hx
  obtain ⟨r0, _, rfl⟩ := List.mem_map.mp hr
  obtain ⟨x0, _, rfl⟩ := List.mem_map.mp hx
  by_cases hneg : x0 < 0
  · simp [hneg]
  · simpa [hneg] using le_of_not_lt hneg

/-- C7: whenever the arithmetic in `pre_processing` is defined, the result
has exactly one output per input, every output image has spatial size
40x40 (inherited from the `cv2.resize` to `target_size = (40, 40)`), and no
element is strictly negative (the final in-place clamp). -/
theorem C7_pre_processing_shape_and_nonneg
    (resize : List (List ℚ) → List (List ℚ))
    (images out : List (List (List ℚ)))
    (hres : ∀ img, (resize img).length = 40 ∧ ∀ r ∈ resize img, r.length = 40)
    (hout : pre_processing resize images = some out) :
    out.length = images.length ∧
      ∀ o ∈ out, (o.length = 40 ∧ ∀ r ∈ o, r.length = 40) ∧
        ∀ r ∈ o, ∀ x ∈ r, 0 ≤ x := by
  induction images generalizing out with
  | nil =>
    cases hout
    exact ⟨rfl, by intro o ho; exact absurd ho (List.not_mem_nil o)⟩
  | cons image rest ih =>
    unfold pre_processing at hout
    cases hit : iterateOpt 6 normalizeStep (resize image) with
    | none => rw [hit] at hout; cases hout
    | some mid =>
      rw [hit] at hout
      cases hrest : pre_processing resize rest with
      | none => rw [hrest] at hout; cases hout
      | some outs =>
        rw [hrest] at hout
        have hout' : clampNeg mid :: outs = out := Option.some.inj hout
        subst hout'
        obtain ⟨ihlen, ihall⟩ := ih outs hrest
        refine ⟨by simpa using ihlen, ?_⟩
        intro o ho
        rcases List.mem_cons.mp ho with rfl | ho'
        · obtain ⟨hmlen, hmrows⟩ := iterateOpt_dims 6 _ mid hit
          obtain ⟨hclen, hcrows⟩ := clampNeg_dims mid
          obtain ⟨h40, hrows40⟩ := hres image
          refine ⟨⟨by rw [hclen, hmlen, h40], ?_⟩, clampNeg_nonneg mid⟩
          intro r hr
          have : r.length ∈ (clampNeg mid).map List.length :=
            List.mem_map_of_mem List.length hr
          rw [hcrows, hmrows] at this
          obtain ⟨r0, hr0, hlen⟩ := List.mem_map.mp this
          rw [← hlen]
          exact hrows40 r0 hr0
        · exact ihall o ho'

/-- A concrete 40x40 image that the normalisation step maps to itself
(mean 0, variance 1). -/
def c7Img : List (List ℚ) :=
  List.replicate 20 (List.replicate 40 (1 : ℚ)) ++
    List.replicate 20 (List.replicate 40 (-1 : ℚ))

theorem flatten_replicate_replicate {α : Type} (n m : Nat) (x : α) :
    (List.replicate n (List.replicate m x)).flatten
      = List.replicate (n * m) x := by
  induction n with
  | zero => simp
  | succ n ih =>
    rw [List.replicate_succ, List.flatten_cons, ih, Nat.succ_mul,
      Nat.add_comm, List.replicate_add]

theorem c7Img_flatten :
    c7Img.flatten
      = List.replicate 800 (1 : ℚ) ++ List.replicate 800 (-1 : ℚ) := by
  rw [c7Img, List.flatten_append, flatten_replicate_replicate,
    flatten_replicate_replicate]

theorem c7Img_mean : meanQ c7Img.flatten = 0 := by
  rw [meanQ, c7Img_flatten]
  norm_num [List.sum_replicate]

theorem c7Img_var : varQ c7Img.flatten = 1 := by
  rw [varQ, c7Img_mean, c7Img_flatten]
  rw [List.map_append, List.map_replicate, List.map_replicate]
  norm_num [meanQ, List.sum_replicate]

theorem c7Img_normalize : normalizeStep c7Img = some c7Img := by
  rw [normalizeStep]
  simp only [c7Img_mean, c7Img_var, one_ne_zero, if_false, if_neg]
  simp

theorem c7Img_iterate : iterateOpt 6 normalizeStep c7Img = some c7Img := by
  simp [iterateOpt, c7Img_normalize]

theorem c7Img_dims : c7Img.length = 40 ∧ ∀ r ∈ c7Img, r.length = 40 := by
  constructor
  · rw [c7Img]; simp
  · intro r hr
    rw [c7Img] at hr
    rcases List.mem_append.mp hr with h | h <;>
      rw [List.eq_of_mem_replicate h] <;> simp

theorem C7_witness :
    pre_processing (fun _ => c7Img) [[[5]]] = some [clampNeg c7Img] ∧
      [clampNeg c7Img].length = [[[(5 : ℚ)]]].length ∧
      ∀ o ∈ [clampNeg c7Img], (o.length = 40 ∧ ∀ r ∈ o, r.length = 40) ∧
        ∀ r ∈ o, ∀ x ∈ r, 0 ≤ x := by
  have hout : pre_processing (fun _ => c7Img) [[[5]]]
      = some [clampNeg c7Img] := by
    simp [pre_processing, c7Img_iterate]
  have h := C7_pre_processing_shape_and_nonneg (fun _ => c7Img) [[[5]]]
    [clampNeg c7Img] (fun _ => c7Img_dims) hout
  exact ⟨hout, h.1, h.2⟩


/-! ## `convert_spectrogram_dict_to_xy` (defined identically in both
notebooks)

The outer dictionary is an insertion-ordered association list (the shape
`load_spectrogram_h5s` produces), the inner dictionaries associate integer
keys to spectrograms. -/

/-- Python's `sorted(spectros.keys())` on the integer keys of an inner
dictionary. -/
def sortedKeys {α : Type} (spectros : List (Nat × α)) : List Nat :=
  (spectros.map Prod.fst).mergeSort fun a b => decide (a ≤ b)

/-- `spectros[idx]`: the Python subscript; the `default` is dead code since
every looked-up key comes from `spectros.keys()`. -/
def pySubscript {α : Type} [Inhabited α] (spectros : List (Nat × α))
    (idx : Nat) : α :=
  (pyGet? spectros idx).getD default

/-- `convert_spectrogram_dict_to_xy(data_dict)`: two accumulator lists
`X_list`/`y_list`, appended to in a nested loop over the dict items and
their sorted keys. -/
def convert_spectrogram_dict_to_xy {α : Type} [Inhabited α]
    (data_dict : List (String × List (Nat × α))) : List α × List String :=
  data_dict.foldl
    (fun acc entry =>
      (sortedKeys entry.2).foldl
        (fun acc2 idx => (acc2.1 ++ [pySubscript entry.2 idx],
                          acc2.2 ++ [entry.1]))
        acc)
    ([], [])

/-- The claim's pairing: each spectrogram with the label it was stored
under, label blocks in dict order, keys ascending within a block. -/
def xySpec {α : Type} [Inhabited α]
    (data_dict : List (String × List (Nat × α))) : List (α × String) :=
  data_dict.flatMap fun entry =>
    (sortedKeys entry.2).map fun idx => (pySubscript entry.2 idx, entry.1)

theorem inner_fold_spec {α : Type} (keys : List Nat) (f : Nat → α)
    (label : String) :
    ∀ acc : List α × List String,
      keys.foldl (fun acc2 idx => (acc2.1 ++ [f idx], acc2.2 ++ [label])) acc
        = (acc.1 ++ keys.map f,
           acc.2 ++ List.replicate keys.length label) := by
  induction keys with
  | nil => intro acc; simp
  | cons k keys ih =>
    intro acc
    rw [List.foldl_cons, ih]
    simp [List.replicate_succ]

theorem outer_fold_spec {α : Type} [Inhabited α]
    (d : List (String × List (Nat × α))) :
    ∀ acc : List α × List String,
      d.foldl
        (fun acc entry =>
          (sortedKeys entry.2).foldl
            (fun acc2 idx => (acc2.1 ++ [pySubscript entry.2 idx],
                              acc2.2 ++ [entry.1]))
            acc)
        acc
      = (acc.1 ++ d.flatMap fun e => (sortedKeys e.2).map (pySubscript e.2),
         acc.2 ++ d.flatMap fun e =>
           List.replicate (sortedKeys e.2).length e.1) := by
  induction d with
  | nil => intro acc; simp
  | cons e d ih =>
    intro acc
    rw [List.foldl_cons, inner_fold_spec, ih]
    simp [List.flatMap_cons]

theorem zip_map_replicate {α : Type} (keys : List Nat) (f : Nat → α)
    (label : String) :
    (keys.map f).zip (List.replicate keys.length label)
      = keys.map fun k => (f k, label) := by
  induction keys with
  | nil => rfl
  | cons k keys ih => simp [List.replicate_succ, ih]

theorem zip_flatMap_blocks {α : Type} [Inhabited α]
    (d : List (String × List (Nat × α))) :
    (d.flatMap fun e => (sortedKeys e.2).map (pySubscript e.2)).zip
        (d.flatMap fun e => List.replicate (sortedKeys e.2).length e.1)
      = d.flatMap fun e =>
          (sortedKeys e.2).map fun idx => (pySubscript e.2 idx, e.1) := by
  induction d with
  | nil => rfl
  | cons e d ih =>
    rw [List.flatMap_cons, List.flatMap_cons, List.flatMap_cons,
      List.zip_append (by simp), zip_map_replicate, ih]

/-- C8: `convert_spectrogram_dict_to_xy` returns `X` and `y` of equal length
`N`, the total number of spectrograms in the dictionary; pointwise, `y[i]`
is the modulation label under which `X[i]` was stored, with each label's
spectrograms listed in ascending order of their integer keys. -/
theorem C8_convert_spectrogram_dict_to_xy_spec {α : Type} [Inhabited α]
    (data_dict : List (String × List (Nat × α))) :
    (convert_spectrogram_dict_to_xy data_dict).1.length
        = (convert_spectrogram_dict_to_xy data_dict).2.length ∧
      (convert_spectrogram_dict_to_xy data_dict).1.length
        = (data_dict.map fun e => e.2.length).sum ∧
      (convert_spectrogram_dict_to_xy data_dict).1.zip
          (convert_spectrogram_dict_to_xy data_dict).2
        = xySpec data_dict ∧
      ∀ e ∈ data_dict, (sortedKeys e.2).Pairwise (· ≤ ·) := by
  have hconv := outer_fold_spec data_dict ([], [])
  rw [convert_spectrogram_dict_to_xy, hconv]
  refine ⟨?_, ?_, ?_, ?_⟩
  · simp only [List.nil_append]
    rw [List.length_flatMap, List.length_flatMap]
    congr 1
    refine List.map_congr_left ?_
    intro e _
    simp
  · simp only [List.nil_append]
    rw [List.length_flatMap]
    congr 1
    refine List.map_congr_left ?_
    intro e _
    simp [sortedKeys]
  · simp only [List.nil_append]
    rw [zip_flatMap_blocks, xySpec]
  · intro e _
    have h := @List.sorted_mergeSort Nat (fun a b : Nat => decide (a ≤ b))
      (fun a b c hab hbc => by
        simp only [decide_eq_true_eq] at *
        omega)
      (fun a b => by
        rcases Nat.le_total a b with h | h <;> simp [h])
      (e.2.map Prod.fst)
    refine h.imp ?_
    intro a b hab
    simpa using hab
/-! ## Confusion-matrix normalisation of `display_confusion_matrix`
(STFT-CNN.ipynb) and `evaluate_model` (both notebooks)

`y_true`/`y_pred` are the encoded label vectors accumulated over the
loader. -/

/-- The label axis of sklearn's `confusion_matrix(y_true, y_pred)`: the
sorted deduplicated union of the values appearing in either vector. -/
def cmLabels (t p : List Nat) : List Nat :=
  ((t ++ p).mergeSort fun a b => decide (a ≤ b)).dedup

/-- Entry `cm[i][j]` of the confusion matrix: how many sample positions
have true label `a` and predicted label `b`. -/
def cmEntry (t p : List Nat) (a b : Nat) : Nat :=
  (t.zip p).countP fun q => decide (q.1 = a ∧ q.2 = b)

/-- `cm.sum(axis=1)` for the row of true label `a`. -/
def cmRowSum (t p : List Nat) (a : Nat) : Nat :=
  ((cmLabels t p).map (cmEntry t p a)).sum

/-- A row of `cm.astype(np.float32) / cm.sum(axis=1, keepdims=True) * 100`,
the normalisation line shared by `display_confusion_matrix` and
`evaluate_model`. -/
def cmNormalizedRow (t p : List Nat) (a : Nat) : List ℚ :=
  (cmLabels t p).map fun b =>
    ((cmEntry t p a b : ℚ) / (cmRowSum t p a : ℚ)) * 100

theorem sum_map_add_nat {β : Type} (L : List β) (f g : β → Nat) :
    (L.map fun b => f b + g b).sum = (L.map f).sum + (L.map g).sum := by
  induction L with
  | nil => rfl
  | cons x L ih => simp [ih]; omega

theorem sum_ite_eq_zero (x : Nat) :
    ∀ L : List Nat, x ∉ L →
      (L.map fun b => if x = b then (1 : Nat) else 0).sum = 0 := by
  intro L
  induction L with
  | nil => intro _; rfl
  | cons c L ih =>
    intro hx
    simp only [List.mem_cons, not_or] at hx
    simp [hx.1, ih hx.2]

theorem sum_ite_eq_one (x : Nat) :
    ∀ L : List Nat, L.Nodup → x ∈ L →
      (L.map fun b => if x = b then (1 : Nat) else 0).sum = 1 := by
  intro L
  induction L with
  | nil => intro _ h; exact absurd h (List.not_mem_nil x)
  | cons c L ih =>
    intro hnd hx
    rw [List.nodup_cons] at hnd
    rcases List.mem_cons.mp hx with rfl | hx'
    · simp [sum_ite_eq_zero x L hnd.1]
    · have hne : x ≠ c := fun he => hnd.1 (he ▸ hx')
      simp [hne, ih hnd.2 hx']

theorem row_total (a : Nat) (labels : List Nat) (hnd : labels.Nodup) :
    ∀ pairs : List (Nat × Nat), (∀ q ∈ pairs, q.2 ∈ labels) →
      (labels.map fun b =>
          pairs.countP fun q => decide (q.1 = a ∧ q.2 = b)).sum
        = pairs.countP fun q => decide (q.1 = a) := by
  intro pairs
  induction pairs with
  | nil => intro _; simp [List.countP_nil]
  | cons q pairs ih =>
    intro hmem
    have hq2 : q.2 ∈ labels := hmem q (by simp)
    have ih' := ih fun r hr => hmem r (List.mem_cons_of_mem _ hr)
    have hstep : (labels.map fun b => (q :: pairs).countP
        fun r => decide (r.1 = a ∧ r.2 = b))
        = labels.map fun b =>
            (pairs.countP fun r => decide (r.1 = a ∧ r.2 = b)) +
              (if q.1 = a ∧ q.2 = b then 1 else 0) := by
      refine List.map_congr_left fun b _ => ?_
      rw [List.countP_cons]
      by_cases h : q.1 = a ∧ q.2 = b <;> simp [h]
    rw [hstep, sum_map_add_nat, ih', List.countP_cons]
    by_cases h1 : q.1 = a
    · have heq : (labels.map fun b =>
          if q.1 = a ∧ q.2 = b then (1 : Nat) else 0)
          = labels.map fun b => if q.2 = b then (1 : Nat) else 0 :=
        List.map_congr_left fun b _ => by simp [h1]
      rw [heq, sum_ite_eq_one q.2 labels hnd hq2]
      simp [h1]
    · have heq : (labels.map fun b =>
          if q.1 = a ∧ q.2 = b then (1 : Nat) else 0)
          = labels.map fun _ => (0 : Nat) :=
        List.map_congr_left fun b _ => by simp [h1]
      rw [heq]
      simp [h1]

theorem sum_map_mul_right_q {β : Type} (L : List β) (f : β → ℚ) (c : ℚ) :
    (L.map fun b => f b * c).sum = (L.map f).sum * c := by
  induction L with
  | nil => simp
  | cons x L ih => simp [ih, add_mul]

/-- C9: the confusion-matrix normalisation divides each row by that row's
sum; when every class occurring among the true or predicted labels occurs
at least once as a true label, every row sum is nonzero, so the division is
well-defined and each normalised row sums to 100. -/
theorem C9_cm_normalization_rows_sum_100 (t p : List Nat)
    (hlen : t.length = p.length)
    (hcover : ∀ c, c ∈ t ++ p → c ∈ t) :
    ∀ a ∈ cmLabels t p,
      cmRowSum t p a ≠ 0 ∧ (cmNormalizedRow t p a).sum = 100 := by
  intro a ha
  have hnd : (cmLabels t p).Nodup := List.nodup_dedup _
  have hmemlab : ∀ c, c ∈ cmLabels t p ↔ c ∈ t ++ p := by
    intro c
    rw [cmLabels, List.mem_dedup, List.mem_mergeSort]
  have hat : a ∈ t := hcover a ((hmemlab a).mp ha)
  have hfst : (t.zip p).map Prod.fst = t := List.map_fst_zip t p (le_of_eq hlen)
  have hpos : 0 < (t.zip p).countP fun q => decide (q.1 = a) := by
    rw [List.countP_pos_iff]
    rw [← hfst] at hat
    obtain ⟨q, hq, hq1⟩ := List.mem_map.mp hat
    exact ⟨q, hq, by simp [hq1]⟩
  have hsnd : ∀ q ∈ t.zip p, q.2 ∈ cmLabels t p := by
    intro q hq
    rw [hmemlab, List.mem_append]
    right
    have hmem : q.2 ∈ (t.zip p).map Prod.snd := List.mem_map_of_mem Prod.snd hq
    rwa [List.map_snd_zip t p (le_of_eq hlen.symm)] at hmem
  have hrow : cmRowSum t p a = (t.zip p).countP fun q => decide (q.1 = a) := by
    rw [cmRowSum]
    exact row_total a (cmLabels t p) hnd (t.zip p) hsnd
  have hS : cmRowSum t p a ≠ 0 := by omega
  refine ⟨hS, ?_⟩
  have hSq : ((cmRowSum t p a : ℚ)) ≠ 0 := by
    exact_mod_cast hS
  rw [cmNormalizedRow]
  have hterm : ∀ b ∈ cmLabels t p,
      ((cmEntry t p a b : ℚ) / (cmRowSum t p a : ℚ)) * 100
        = (cmEntry t p a b : ℚ) * (100 / (cmRowSum t p a : ℚ)) := by
    intro b _
    ring
  rw [List.map_congr_left hterm, sum_map_mul_right_q]
  have hcast : ((cmLabels t p).map fun b => (cmEntry t p a b : ℚ)).sum
      = ((cmRowSum t p a : Nat) : ℚ) := by
    rw [cmRowSum, Nat.cast_list_sum, List.map_map]
    rfl
  rw [hcast]
  field_simp

theorem C9_witness : (cmNormalizedRow [0, 1] [1, 0] 0).sum = 100 :=
  (C9_cm_normalization_rows_sum_100 [0, 1] [1, 0] (by decide) (by decide) 0
    (by simp [cmLabels])).2


/-! ## `train_model` (three copies across the notebooks)

The loop is embedded with explicit state passing over the list of epoch
indices.  Everything the body delegates to the framework — forward,
backward, `optimizer.step()` (plus `clip_grad_norm_` in the second LDC
variant) — is abstracted into `bl : Nat → List ℚ`, the per-batch losses
each epoch's pass over the loader produces; `L = len(train_loader)`;
`sched` records whether a scheduler was passed. -/

/-- `avg_loss < best_loss - min_delta`; `none` is the initial
`best_loss = float("inf")`, against which any finite average improves. -/
def improves (minDelta avg : ℚ) : Option ℚ → Bool
  | none => true
  | some best => decide (avg < best - minDelta)

/-- The per-epoch average loss: `total_loss / len(train_loader)`. -/
def avgFn (bl : Nat → List ℚ) (L : Nat) : Nat → ℚ :=
  fun i => (bl i).sum / (L : ℚ)

/-- The value of `best_loss` entering epoch `e` (ignoring early stopping,
which only truncates the run). -/
def bestUpTo (f : Nat → ℚ) (minDelta : ℚ) : Nat → Option ℚ
  | 0 => none
  | e + 1 =>
    if improves minDelta (f e) (bestUpTo f minDelta e) then some (f e)
    else bestUpTo f minDelta e

/-- Epoch `e` fails to improve on the best average seen so far by more than
`min_delta`. -/
def failsAt (f : Nat → ℚ) (minDelta : ℚ) (e : Nat) : Bool :=
  ! improves minDelta (f e) (bestUpTo f minDelta e)

/-- The value of `patience_counter` after epoch `e - 1`: the length of the
streak of consecutive failing epochs ending just before `e`. -/
def failStreak (f : Nat → ℚ) (minDelta : ℚ) : Nat → Nat
  | 0 => 0
  | e + 1 => if failsAt f minDelta e then failStreak f minDelta e + 1 else 0

/-- The early-stopping break fires at the end of epoch `e`. -/
def stopPred (f : Nat → ℚ) (minDelta : ℚ) (patience : Nat) (e : Nat) : Bool :=
  failsAt f minDelta e && decide (patience ≤ failStreak f minDelta (e + 1))

/-- How many of the `n` epochs `e, e+1, ...` actually run. -/
def stopCount (f : Nat → ℚ) (minDelta : ℚ) (patience e n : Nat) : Nat :=
  ((List.range' e n).find? (stopPred f minDelta patience)).elim n
    fun i => i + 1 - e

/-- The observable outcome of one `train_model` call: the returned
`loss_history`, how many epochs the loop executed, how many times
`scheduler.step()` ran, and after which epochs `torch.save` wrote
`model_latest.pth` (always `[]` for the variants without checkpointing). -/
structure TrainResult where
  loss_history : List ℚ
  epochsRun : Nat
  schedSteps : Nat
  savedEpochs : List Nat
  deriving DecidableEq, Repr

/-- The epoch loop shared by `train_model` of STFT-CNN.ipynb and the second
`train_model` of LDC-Unet.ipynb (whose only difference, a
`clip_grad_norm_` inside the batch loop, is part of the abstracted batch
dynamics `bl`): per epoch, accumulate the batch losses (`bl epoch`, the
losses the opaque forward/backward/optimizer dynamics produce), append
`total_loss / len(train_loader)` to the history, step the scheduler if one
was given, then run the early-stopping check on `best_loss` /
`patience_counter`. -/
def train_model_go (bl : Nat → List ℚ) (L : Nat) (sched : Bool)
    (minDelta : ℚ) (patience : Nat) :
    List Nat → List ℚ → Option ℚ → Nat → Nat → Nat → TrainResult
  | [], hist, _best, _counter, run, steps => ⟨hist.reverse, run, steps, []⟩
  | epoch :: rest, hist, best, counter, run, steps =>
    let avg_loss := (bl epoch).sum / (L : ℚ)
    let hist' := avg_loss :: hist
    let steps' := if sched then steps + 1 else steps
    if improves minDelta avg_loss best then
      train_model_go bl L sched minDelta patience rest hist' (some avg_loss) 0
        (run + 1) steps'
    else if patience ≤ counter + 1 then
      ⟨hist'.reverse, run + 1, steps', []⟩
    else
      train_model_go bl L sched minDelta patience rest hist' best (counter + 1)
        (run + 1) steps'

/-- `train_model(model, train_loader, device, criterion, optimizer,
scheduler, epochs, patience, min_delta)` with `len(train_loader) = L`. -/
def train_model (bl : Nat → List ℚ) (L : Nat) (sched : Bool) (minDelta : ℚ)
    (patience epochs : Nat) : TrainResult :=
  train_model_go bl L sched minDelta patience (List.range epochs) [] none 0 0 0

theorem stopCount_succ_of_stop (f : Nat → ℚ) (minDelta : ℚ)
    (patience e n : Nat) (h : stopPred f minDelta patience e = true) :
    stopCount f minDelta patience e (n + 1) = 1 := by
  rw [stopCount, List.range'_succ, List.find?_cons_of_pos _ h]
  simp

theorem stopCount_succ_of_go (f : Nat → ℚ) (minDelta : ℚ)
    (patience e n : Nat) (h : stopPred f minDelta patience e = false) :
    stopCount f minDelta patience e (n + 1)
      = stopCount f minDelta patience (e + 1) n + 1 := by
  rw [stopCount, stopCount, List.range'_succ,
    List.find?_cons_of_neg _ (by simp [h])]
  cases hfind : (List.range' (e + 1) n).find? (stopPred f minDelta patience) with
  | none => simp
  | some i =>
    have hle : e + 1 ≤ i :=
      (List.mem_range'_1.mp (List.mem_of_find?_eq_some hfind)).1
    simp only [Option.elim_some]
    omega

theorem train_model_go_spec (bl : Nat → List ℚ) (L : Nat) (sched : Bool)
    (minDelta : ℚ) (patience : Nat) :
    ∀ (n e : Nat) (hist : List ℚ) (run steps : Nat),
      train_model_go bl L sched minDelta patience (List.range' e n) hist
          (bestUpTo (avgFn bl L) minDelta e)
          (failStreak (avgFn bl L) minDelta e) run steps
        = ⟨hist.reverse ++ (List.range' e
              (stopCount (avgFn bl L) minDelta patience e n)).map (avgFn bl L),
           run + stopCount (avgFn bl L) minDelta patience e n,
           steps + (if sched
             then stopCount (avgFn bl L) minDelta patience e n else 0),
           []⟩ := by
  intro n
  induction n with
  | zero =>
    intro e hist run steps
    simp [train_model_go, stopCount, ite_self]
  | succ n ih =>
    intro e hist run steps
    rw [List.range'_succ]
    simp only [train_model_go]
    set f := avgFn bl L with hf
    have havg : (bl e).sum / (L : ℚ) = f e := rfl
    rw [havg]
    by_cases himp : improves minDelta (f e) (bestUpTo f minDelta e) = true
    · have hfails : failsAt f minDelta e = false := by
        simp [failsAt, himp]
      have hstop : stopPred f minDelta patience e = false := by
        simp [stopPred, hfails]
      have hcount := stopCount_succ_of_go f minDelta patience e n hstop
      have hbest : bestUpTo f minDelta (e + 1) = some (f e) := by
        rw [bestUpTo, if_pos himp]
      have hstreak : failStreak f minDelta (e + 1) = 0 := by
        rw [failStreak, if_neg (by simp [hfails])]
      rw [if_pos himp]
      have happ := ih (e + 1) (f e :: hist) (run + 1)
        (if sched then steps + 1 else steps)
      rw [hbest, hstreak] at happ
      rw [happ, hcount]
      cases sched <;>
        simp [TrainResult.mk.injEq, List.range'_succ, List.append_assoc] <;>
        omega
    · have hfails : failsAt f minDelta e = true := by
        simp [failsAt, himp]
      have hstreak : failStreak f minDelta (e + 1)
          = failStreak f minDelta e + 1 := by
        rw [failStreak, if_pos hfails]
      have hbest : bestUpTo f minDelta (e + 1) = bestUpTo f minDelta e := by
        rw [bestUpTo, if_neg himp]
      rw [if_neg himp]
      by_cases hp : patience ≤ failStreak f minDelta e + 1
      · have hstop : stopPred f minDelta patience e = true := by
          rw [stopPred, hstreak, hfails]
          simpa using hp
        have hcount := stopCount_succ_of_stop f minDelta patience e n hstop
        rw [if_pos hp, hcount]
        cases sched <;>
          simp [TrainResult.mk.injEq, List.range'_succ]
      · have hstop : stopPred f minDelta patience e = false := by
          rw [stopPred, hstreak]
          simp [hp]
        have hcount := stopCount_succ_of_go f minDelta patience e n hstop
        rw [if_neg hp]
        have happ := ih (e + 1) (f e :: hist) (run + 1)
          (if sched then steps + 1 else steps)
        rw [hbest, hstreak] at happ
        rw [happ, hcount]
        cases sched <;>
          simp [TrainResult.mk.injEq, List.range'_succ, List.append_assoc] <;>
          omega

theorem train_model_spec (bl : Nat → List ℚ) (L : Nat) (sched : Bool)
    (minDelta : ℚ) (patience epochs : Nat) :
    train_model bl L sched minDelta patience epochs
      = ⟨(List.range' 0
            (stopCount (avgFn bl L) minDelta patience 0 epochs)).map (avgFn bl L),
         stopCount (avgFn bl L) minDelta patience 0 epochs,
         if sched then stopCount (avgFn bl L) minDelta patience 0 epochs else 0,
         []⟩ := by
  have h := train_model_go_spec bl L sched minDelta patience epochs 0 [] 0 0
  simp only [show bestUpTo (avgFn bl L) minDelta 0 = none from rfl,
    show failStreak (avgFn bl L) minDelta 0 = 0 from rfl] at h
  rw [train_model, List.range_eq_range', h]
  simp

theorem failStreak_le (f : Nat → ℚ) (minDelta : ℚ) :
    ∀ n, failStreak f minDelta n ≤ n := by
  intro n
  induction n with
  | zero => exact le_refl 0
  | succ n ih =>
    rw [failStreak]
    by_cases hf : failsAt f minDelta n = true
    · rw [if_pos hf]; omega
    · rw [if_neg hf]; omega

theorem le_failStreak_iff (f : Nat → ℚ) (minDelta : ℚ) :
    ∀ n p : Nat,
      p ≤ failStreak f minDelta n ↔
        p ≤ n ∧ ∀ j, n ≤ j + p → j < n → failsAt f minDelta j = true := by
  intro n
  induction n with
  | zero =>
    intro p
    constructor
    · intro h
      exact ⟨by simpa [failStreak] using h,
        fun j _ hj => absurd hj (Nat.not_lt_zero j)⟩
    · intro h
      simpa [failStreak] using h.1
  | succ n ih =>
    intro p
    rw [failStreak]
    by_cases hf : failsAt f minDelta n = true
    · rw [if_pos hf]
      cases p with
      | zero =>
        constructor
        · intro _
          exact ⟨Nat.zero_le _, fun j hj1 hj2 => absurd hj1 (by omega)⟩
        · intro _
          exact Nat.zero_le _
      | succ p' =>
        constructor
        · intro h
          have hp' : p' ≤ failStreak f minDelta n := by omega
          obtain ⟨h1, h2⟩ := (ih p').mp hp'
          refine ⟨by omega, ?_⟩
          intro j hj1 hj2
          by_cases hjn : j = n
          · subst hjn; exact hf
          · exact h2 j (by omega) (by omega)
        · intro h
          obtain ⟨h1, h2⟩ := h
          have hp' : p' ≤ failStreak f minDelta n :=
            (ih p').mpr ⟨by omega, fun j hj1 hj2 => h2 j (by omega) (by omega)⟩
          omega
    · rw [if_neg hf]
      constructor
      · intro h
        have hp : p = 0 := by omega
        subst hp
        exact ⟨Nat.zero_le _, fun j hj1 hj2 => by omega⟩
      · intro h
        obtain ⟨h1, h2⟩ := h
        by_cases hp : p = 0
        · omega
        · exact absurd (h2 n (by omega) (by omega)) hf

theorem find?_range'_first (p : Nat → Bool) :
    ∀ n e i : Nat, (List.range' e n).find? p = some i →
      e ≤ i ∧ i < e + n ∧ p i = true ∧
        ∀ j, e ≤ j → j < i → p j = false := by
  intro n
  induction n with
  | zero =>
    intro e i h
    simp at h
  | succ n ih =>
    intro e i h
    rw [List.range'_succ] at h
    by_cases hpe : p e = true
    · rw [List.find?_cons_of_pos _ hpe] at h
      obtain rfl : e = i := by simpa using h
      exact ⟨le_refl e, by omega, hpe, fun j hj1 hj2 => by omega⟩
    · rw [List.find?_cons_of_neg _ (by simp [hpe])] at h
      obtain ⟨h1, h2, h3, h4⟩ := ih (e + 1) i h
      refine ⟨by omega, by omega, h3, ?_⟩
      intro j hj1 hj2
      rcases Nat.eq_or_lt_of_le hj1 with rfl | hlt
      · simpa using hpe
      · exact h4 j (by omega) hj2

theorem stopCount_le (f : Nat → ℚ) (minDelta : ℚ) (patience : Nat) :
    ∀ e n, stopCount f minDelta patience e n ≤ n := by
  intro e n
  rw [stopCount]
  cases hfind : (List.range' e n).find? (stopPred f minDelta patience) with
  | none => simp
  | some i =>
    have h := find?_range'_first _ n e i hfind
    simp only [Option.elim_some]
    omega

theorem stopPred_true_iff (f : Nat → ℚ) (minDelta : ℚ) (patience : Nat)
    (hpat : 0 < patience) (e : Nat) :
    stopPred f minDelta patience e = true ↔
      patience ≤ e + 1 ∧
        ∀ j, e + 1 ≤ j + patience → j ≤ e → failsAt f minDelta j = true := by
  rw [stopPred]
  constructor
  · intro h
    rw [Bool.and_eq_true, decide_eq_true_eq] at h
    obtain ⟨h1, h2⟩ := (le_failStreak_iff f minDelta (e + 1) patience).mp h.2
    exact ⟨h1, fun j hj1 hj2 => h2 j hj1 (by omega)⟩
  · intro h
    obtain ⟨h1, h2⟩ := h
    have hstreak : patience ≤ failStreak f minDelta (e + 1) :=
      (le_failStreak_iff f minDelta (e + 1) patience).mpr
        ⟨h1, fun j hj1 hj2 => h2 j hj1 (by omega)⟩
    have hfe : failsAt f minDelta e = true := h2 e (by omega) (le_refl e)
    rw [Bool.and_eq_true, decide_eq_true_eq]
    exact ⟨hfe, hstreak⟩

theorem stopCount_lt_iff (f : Nat → ℚ) (minDelta : ℚ)
    (patience epochs : Nat) (hpat : 0 < patience) :
    stopCount f minDelta patience 0 epochs < epochs ↔
      ∃ e, e + 1 < epochs ∧ patience ≤ e + 1 ∧
        ∀ j, e + 1 ≤ j + patience → j ≤ e → failsAt f minDelta j = true := by
  rw [stopCount]
  cases hfind : (List.range' 0 epochs).find? (stopPred f minDelta patience) with
  | none =>
    simp only [Option.elim_none]
    constructor
    · intro h
      exact absurd h (lt_irrefl epochs)
    · intro h
      obtain ⟨e, he1, he2, he3⟩ := h
      have hpe : stopPred f minDelta patience e = true :=
        (stopPred_true_iff f minDelta patience hpat e).mpr ⟨he2, he3⟩
      have hmem : e ∈ List.range' 0 epochs :=
        List.mem_range'_1.mpr ⟨Nat.zero_le e, by omega⟩
      have := List.find?_eq_none.mp hfind e hmem
      exact absurd hpe this
  | some i =>
    obtain ⟨_, hi2, hi3, hi4⟩ := find?_range'_first _ epochs 0 i hfind
    simp only [Option.elim_some, Nat.sub_zero]
    constructor
    · intro h
      refine ⟨i, by omega, ?_⟩
      have := (stopPred_true_iff f minDelta patience hpat i).mp hi3
      exact this
    · intro h
      obtain ⟨e, he1, he2, he3⟩ := h
      have hpe : stopPred f minDelta patience e = true :=
        (stopPred_true_iff f minDelta patience hpat e).mpr ⟨he2, he3⟩
      by_cases hie : i ≤ e
      · omega
      · exact absurd hpe (by simp [hi4 e (Nat.zero_le e) (by omega)])

/-- The epoch loop of the first `train_model` of LDC-Unet.ipynb: as
`train_model_go`, but after printing the epoch average it also executes
`if epoch % 5: torch.save(model, "model_latest.pth")` — a checkpoint is
written exactly when `epoch % 5` is truthy, i.e. not divisible by 5. -/
def train_model_ldc_go (bl : Nat → List ℚ) (L : Nat) (sched : Bool)
    (minDelta : ℚ) (patience : Nat) :
    List Nat → List ℚ → Option ℚ → Nat → Nat → Nat → List Nat → TrainResult
  | [], hist, _best, _counter, run, steps, saves =>
    ⟨hist.reverse, run, steps, saves.reverse⟩
  | epoch :: rest, hist, best, counter, run, steps, saves =>
    let avg_loss := (bl epoch).sum / (L : ℚ)
    let hist' := avg_loss :: hist
    let saves' := if epoch % 5 ≠ 0 then epoch :: saves else saves
    let steps' := if sched then steps + 1 else steps
    if improves minDelta avg_loss best then
      train_model_ldc_go bl L sched minDelta patience rest hist'
        (some avg_loss) 0 (run + 1) steps' saves'
    else if patience ≤ counter + 1 then
      ⟨hist'.reverse, run + 1, steps', saves'.reverse⟩
    else
      train_model_ldc_go bl L sched minDelta patience rest hist' best
        (counter + 1) (run + 1) steps' saves'

/-- The first `train_model` of LDC-Unet.ipynb (the SSR-loss one with
checkpointing). -/
def train_model_ldc (bl : Nat → List ℚ) (L : Nat) (sched : Bool)
    (minDelta : ℚ) (patience epochs : Nat) : TrainResult :=
  train_model_ldc_go bl L sched minDelta patience (List.range epochs)
    [] none 0 0 0 []

theorem train_model_ldc_go_spec (bl : Nat → List ℚ) (L : Nat) (sched : Bool)
    (minDelta : ℚ) (patience : Nat) :
    ∀ (n e : Nat) (hist : List ℚ) (run steps : Nat) (saves : List Nat),
      train_model_ldc_go bl L sched minDelta patience (List.range' e n) hist
          (bestUpTo (avgFn bl L) minDelta e)
          (failStreak (avgFn bl L) minDelta e) run steps saves
        = ⟨hist.reverse ++ (List.range' e
              (stopCount (avgFn bl L) minDelta patience e n)).map (avgFn bl L),
           run + stopCount (avgFn bl L) minDelta patience e n,
           steps + (if sched
             then stopCount (avgFn bl L) minDelta patience e n else 0),
           saves.reverse ++ (List.range' e
              (stopCount (avgFn bl L) minDelta patience e n)).filter
              fun x => decide (x % 5 ≠ 0)⟩ := by
  intro n
  induction n with
  | zero =>
    intro e hist run steps saves
    simp [train_model_ldc_go, stopCount, ite_self]
  | succ n ih =>
    intro e hist run steps saves
    rw [List.range'_succ]
    simp only [train_model_ldc_go]
    set f := avgFn bl L with hf
    have havg : (bl e).sum / (L : ℚ) = f e := rfl
    rw [havg]
    by_cases himp : improves minDelta (f e) (bestUpTo f minDelta e) = true
    · have hfails : failsAt f minDelta e = false := by
        simp [failsAt, himp]
      have hstop : stopPred f minDelta patience e = false := by
        simp [stopPred, hfails]
      have hcount := stopCount_succ_of_go f minDelta patience e n hstop
      have hbest : bestUpTo f minDelta (e + 1) = some (f e) := by
        rw [bestUpTo, if_pos himp]
      have hstreak : failStreak f minDelta (e + 1) = 0 := by
        rw [failStreak, if_neg (by simp [hfails])]
      rw [if_pos himp]
      have happ := ih (e + 1) (f e :: hist) (run + 1)
        (if sched then steps + 1 else steps)
        (if e % 5 ≠ 0 then e :: saves else saves)
      rw [hbest, hstreak] at happ
      rw [happ, hcount]
      by_cases hm : e % 5 ≠ 0 <;> cases sched <;>
        simp [TrainResult.mk.injEq, List.range'_succ, List.append_assoc,
          List.filter_cons, hm] <;>
        omega
    · have hfails : failsAt f minDelta e = true := by
        simp [failsAt, himp]
      have hstreak : failStreak f minDelta (e + 1)
          = failStreak f minDelta e + 1 := by
        rw [failStreak, if_pos hfails]
      have hbest : bestUpTo f minDelta (e + 1) = bestUpTo f minDelta e := by
        rw [bestUpTo, if_neg himp]
      rw [if_neg himp]
      by_cases hp : patience ≤ failStreak f minDelta e + 1
      · have hstop : stopPred f minDelta patience e = true := by
          rw [stopPred, hstreak, hfails]
          simpa using hp
        have hcount := stopCount_succ_of_stop f minDelta patience e n hstop
        rw [if_pos hp, hcount]
        by_cases hm : e % 5 ≠ 0 <;> cases sched <;>
          simp [TrainResult.mk.injEq, List.range'_succ, List.filter_cons, hm]
      · have hstop : stopPred f minDelta patience e = false := by
          rw [stopPred, hstreak]
          simp [hp]
        have hcount := stopCount_succ_of_go f minDelta patience e n hstop
        rw [if_neg hp]
        have happ := ih (e + 1) (f e :: hist) (run + 1)
          (if sched then steps + 1 else steps)
          (if e % 5 ≠ 0 then e :: saves else saves)
        rw [hbest, hstreak] at happ
        rw [happ, hcount]
        by_cases hm : e % 5 ≠ 0 <;> cases sched <;>
          simp [TrainResult.mk.injEq, List.range'_succ, List.append_assoc,
            List.filter_cons, hm] <;>
          omega

theorem train_model_ldc_spec (bl : Nat → List ℚ) (L : Nat) (sched : Bool)
    (minDelta : ℚ) (patience epochs : Nat) :
    train_model_ldc bl L sched minDelta patience epochs
      = ⟨(List.range' 0
            (stopCount (avgFn bl L) minDelta patience 0 epochs)).map (avgFn bl L),
         stopCount (avgFn bl L) minDelta patience 0 epochs,
         if sched then stopCount (avgFn bl L) minDelta patience 0 epochs else 0,
         (List.range' 0
            (stopCount (avgFn bl L) minDelta patience 0 epochs)).filter
            fun x => decide (x % 5 ≠ 0)⟩ := by
  have h := train_model_ldc_go_spec bl L sched minDelta patience epochs 0 []
    0 0 []
  simp only [show bestUpTo (avgFn bl L) minDelta 0 = none from rfl,
    show failStreak (avgFn bl L) minDelta 0 = 0 from rfl] at h
  rw [train_model_ldc, List.range_eq_range', h]
  simp

/-- C2: in every notebook's `train_model`, the returned loss history has
exactly one entry per epoch that ran — the mean of that epoch's per-batch
losses — training stops before the requested number of epochs exactly when
`patience` consecutive epochs each fail to beat the best average seen so
far by more than `min_delta` (with the streak completing before the final
epoch), otherwise all `epochs` epochs run, and the scheduler is stepped
once at the end of every completed epoch.  The LDC-Unet variant runs the
identical loop (its loss history, epoch count and scheduler steps
agree). -/
theorem C2_train_model_loop (bl : Nat → List ℚ) (L : Nat) (sched : Bool)
    (minDelta : ℚ) (patience epochs : Nat)
    (hL : ∀ i, (bl i).length = L) (_hLpos : 0 < L) (hpat : 0 < patience) :
    (train_model bl L sched minDelta patience epochs).loss_history
        = (List.range
            (train_model bl L sched minDelta patience epochs).epochsRun).map
            (fun e => meanQ (bl e)) ∧
      (train_model bl L sched minDelta patience epochs).epochsRun ≤ epochs ∧
      ((train_model bl L sched minDelta patience epochs).epochsRun < epochs ↔
        ∃ e, e + 1 < epochs ∧ patience ≤ e + 1 ∧
          ∀ j, e + 1 ≤ j + patience → j ≤ e →
            failsAt (fun i => meanQ (bl i)) minDelta j = true) ∧
      (sched = true →
        (train_model bl L sched minDelta patience epochs).schedSteps
          = (train_model bl L sched minDelta patience epochs).epochsRun) ∧
      (train_model_ldc bl L sched minDelta patience epochs).loss_history
        = (train_model bl L sched minDelta patience epochs).loss_history ∧
      (train_model_ldc bl L sched minDelta patience epochs).epochsRun
        = (train_model bl L sched minDelta patience epochs).epochsRun ∧
      (train_model_ldc bl L sched minDelta patience epochs).schedSteps
        = (train_model bl L sched minDelta patience epochs).schedSteps := by
  have havg : avgFn bl L = fun i => meanQ (bl i) := by
    funext i
    rw [avgFn, meanQ, hL i]
  have hspec := train_model_spec bl L sched minDelta patience epochs
  have hldc := train_model_ldc_spec bl L sched minDelta patience epochs
  rw [havg] at hspec hldc
  refine ⟨?_, ?_, ?_, ?_, ?_, ?_, ?_⟩
  · rw [hspec, List.range_eq_range']
  · rw [hspec]
    exact stopCount_le _ minDelta patience 0 epochs
  · rw [hspec]
    exact stopCount_lt_iff _ minDelta patience epochs hpat
  · intro hs
    rw [hspec, hs]
    simp
  · rw [hspec, hldc]
  · rw [hspec, hldc]
  · rw [hspec, hldc]

theorem C2_witness :
    (train_model (fun _ => [1]) 1 true 0 1 3).loss_history
        = (List.range
            (train_model (fun _ => [1]) 1 true 0 1 3).epochsRun).map
            (fun e => meanQ ((fun _ => [(1 : ℚ)]) e)) ∧
      (train_model (fun _ => [1]) 1 true 0 1 3).epochsRun ≤ 3 ∧
      ((train_model (fun _ => [1]) 1 true 0 1 3).epochsRun < 3 ↔
        ∃ e, e + 1 < 3 ∧ 1 ≤ e + 1 ∧
          ∀ j, e + 1 ≤ j + 1 → j ≤ e →
            failsAt (fun i => meanQ ((fun _ => [(1 : ℚ)]) i)) 0 j = true) ∧
      (true = true →
        (train_model (fun _ => [1]) 1 true 0 1 3).schedSteps
          = (train_model (fun _ => [1]) 1 true 0 1 3).epochsRun) ∧
      (train_model_ldc (fun _ => [1]) 1 true 0 1 3).loss_history
        = (train_model (fun _ => [1]) 1 true 0 1 3).loss_history ∧
      (train_model_ldc (fun _ => [1]) 1 true 0 1 3).epochsRun
        = (train_model (fun _ => [1]) 1 true 0 1 3).epochsRun ∧
      (train_model_ldc (fun _ => [1]) 1 true 0 1 3).schedSteps
        = (train_model (fun _ => [1]) 1 true 0 1 3).schedSteps :=
  C2_train_model_loop (fun _ => [1]) 1 true 0 1 3 (fun _ => rfl)
    (by decide) (by decide)

/-- C10: in the LDC-Unet `train_model`, `model_latest.pth` is written at
the end of an epoch exactly when the zero-based epoch index is not
divisible by 5 — never after epoch 0, 5, 10, ..., and after every other
epoch that runs. -/
theorem C10_ldc_checkpoint_condition (bl : Nat → List ℚ) (L : Nat)
    (sched : Bool) (minDelta : ℚ) (patience epochs : Nat) :
    (train_model_ldc bl L sched minDelta patience epochs).savedEpochs
        = (List.range
            (train_model_ldc bl L sched minDelta patience epochs).epochsRun).filter
            (fun e => decide (e % 5 ≠ 0)) ∧
      ∀ e, e ∈ (train_model_ldc bl L sched minDelta patience epochs).savedEpochs
        ↔ e < (train_model_ldc bl L sched minDelta patience epochs).epochsRun
            ∧ e % 5 ≠ 0 := by
  have hldc := train_model_ldc_spec bl L sched minDelta patience epochs
  constructor
  · rw [hldc, List.range_eq_range']
  · intro e
    rw [hldc]
    simp only [List.mem_filter, List.mem_range'_1, decide_eq_true_eq]
    omega

end AIMC
